import Mathlib

/-!
Verification of the reservoir-computing (echo state network) core of
`Chapter8/LearningAlgorithmsTemporal.py` (class `TemporalClassificationAlgorithms`).

Tables are modelled column-wise: a table with `c` named columns is a family
`Fin c → List ℚ` of columns, each column being the list of its row values in
temporal order.  Exact rational arithmetic stands in for floating point; the
external numerical routines (`np.tanh`, `np.arctanh`, `scipy.linalg.pinv`,
`scipy.linalg.eig`) are abstracted as function parameters, and the spectral
radius facts are stated against Mathlib's `spectralRadius` over `ℂ`.
-/

open scoped ENNReal NNReal

namespace ML4QS

/-! ### Normalization utility (`normalize` / `denormalize`) -/

/-- Minimum of a column, as computed by pandas `.min()` on a nonempty column
(the source only ever applies it to nonempty tables; `[]` is given the junk
value `0`, which no theorem relies on). -/
def colMin : List ℚ → ℚ
  | [] => 0
  | x :: xs => xs.foldl min x

/-- Maximum of a column, as computed by pandas `.max()` on a nonempty column. -/
def colMax : List ℚ → ℚ
  | [] => 0
  | x :: xs => xs.foldl max x

/-- The per-column divisor of `normalize`/`denormalize`:
`difference = maximum - minimum` followed by `difference.replace(0, 1)`. -/
def normDifference (minimum maximum : ℚ) : ℚ :=
  if maximum - minimum = 0 then 1 else maximum - minimum

/-- Embedding of `TemporalClassificationAlgorithms.normalize`.  The per-column
minimum and maximum are taken over the concatenation (`append`) of the train
and test tables, and each entry `v` is mapped to
`((v - minimum) / difference) * (range_max - range_min) + range_min`.
Returns `(new_train, new_test, minimum, maximum)`. -/
def normalize {c : ℕ} (train test : Fin c → List ℚ) (range_min range_max : ℚ) :
    (Fin c → List ℚ) × (Fin c → List ℚ) × (Fin c → ℚ) × (Fin c → ℚ) :=
  let total : Fin c → List ℚ := fun j => train j ++ test j
  let maximum : Fin c → ℚ := fun j => colMax (total j)
  let minimum : Fin c → ℚ := fun j => colMin (total j)
  let scale : Fin c → ℚ → ℚ := fun j v =>
    ((v - minimum j) / normDifference (minimum j) (maximum j)) * (range_max - range_min) + range_min
  (fun j => (train j).map (scale j), fun j => (test j).map (scale j), minimum, maximum)

/-- Embedding of `TemporalClassificationAlgorithms.denormalize`:
`y = (y - range_min) / (range_max - range_min)` then `y * difference + minimum`,
with the same zero-range-to-one substitution on the divisor. -/
def denormalize {c : ℕ} (y : Fin c → List ℚ) (minimum maximum : Fin c → ℚ)
    (range_min range_max : ℚ) : Fin c → List ℚ :=
  fun j => (y j).map (fun v =>
    ((v - range_min) / (range_max - range_min)) * normDifference (minimum j) (maximum j)
      + minimum j)

lemma normDifference_ne_zero (minimum maximum : ℚ) : normDifference minimum maximum ≠ 0 := by
  unfold normDifference
  split_ifs with h
  · exact one_ne_zero
  · exact h

lemma foldl_min_le_init (xs : List ℚ) (a : ℚ) : xs.foldl min a ≤ a := by
  induction xs generalizing a with
  | nil => exact le_refl a
  | cons x xs ih => exact le_trans (ih (min a x)) (min_le_left a x)

lemma foldl_min_le_mem (xs : List ℚ) (a v : ℚ) (hv : v ∈ xs) : xs.foldl min a ≤ v := by
  induction xs generalizing a with
  | nil => cases hv
  | cons x xs ih =>
    rcases List.mem_cons.mp hv with h | h
    · subst h
      exact le_trans (foldl_min_le_init xs (min a v)) (min_le_right a v)
    · exact ih (min a x) h

lemma init_le_foldl_max (xs : List ℚ) (a : ℚ) : a ≤ xs.foldl max a := by
  induction xs generalizing a with
  | nil => exact le_refl a
  | cons x xs ih => exact le_trans (le_max_left a x) (ih (max a x))

lemma mem_le_foldl_max (xs : List ℚ) (a v : ℚ) (hv : v ∈ xs) : v ≤ xs.foldl max a := by
  induction xs generalizing a with
  | nil => cases hv
  | cons x xs ih =>
    rcases List.mem_cons.mp hv with h | h
    · subst h
      exact le_trans (le_max_right a v) (init_le_foldl_max xs (max a v))
    · exact ih (max a x) h

lemma colMin_le_of_mem {l : List ℚ} {v : ℚ} (hv : v ∈ l) : colMin l ≤ v := by
  cases l with
  | nil => cases hv
  | cons x xs =>
    rcases List.mem_cons.mp hv with h | h
    · subst h
      exact foldl_min_le_init xs v
    · exact foldl_min_le_mem xs x v h

lemma le_colMax_of_mem {l : List ℚ} {v : ℚ} (hv : v ∈ l) : v ≤ colMax l := by
  cases l with
  | nil => cases hv
  | cons x xs =>
    rcases List.mem_cons.mp hv with h | h
    · subst h
      exact init_le_foldl_max xs v
    · exact mem_le_foldl_max xs x v h

/-- C4: for every numeric train/test pair and every pair of range bounds with
`range_min ≠ range_max`, denormalizing the scaled train table returned by
`normalize`, with the minimum/maximum vectors that `normalize` returned and
the same range bounds, recovers the original train table exactly (rational
arithmetic models the floating-point tolerance) — including columns whose
range over the concatenation of train and test is zero. -/
theorem denormalize_normalize_roundtrip {c : ℕ} (train test : Fin c → List ℚ)
    (range_min range_max : ℚ) (h : range_min ≠ range_max) :
    denormalize (normalize train test range_min range_max).1
      (normalize train test range_min range_max).2.2.1
      (normalize train test range_min range_max).2.2.2 range_min range_max = train := by
  have hr : range_max - range_min ≠ 0 := sub_ne_zero.mpr (Ne.symm h)
  funext j
  simp only [normalize, denormalize, List.map_map]
  have hfun : ∀ v : ℚ,
      ((((v - colMin (train j ++ test j)) /
            normDifference (colMin (train j ++ test j)) (colMax (train j ++ test j))) *
            (range_max - range_min) + range_min - range_min) / (range_max - range_min)) *
          normDifference (colMin (train j ++ test j)) (colMax (train j ++ test j)) +
          colMin (train j ++ test j) = v := by
    intro v
    have hd := normDifference_ne_zero (colMin (train j ++ test j)) (colMax (train j ++ test j))
    field_simp
    ring
  calc (train j).map _ = (train j).map id := List.map_congr_left (fun v _ => hfun v)
    _ = train j := List.map_id (train j)

/-- Witness for C4 on a concrete pair of two-column tables whose second column
has zero range over the concatenation of train and test. -/
theorem denormalize_normalize_roundtrip_witness :
    (0 : ℚ) ≠ 1 ∧
      denormalize (normalize ![[(1 : ℚ), 2], [5, 5]] ![[(3 : ℚ)], [5]] 0 1).1
        (normalize ![[(1 : ℚ), 2], [5, 5]] ![[(3 : ℚ)], [5]] 0 1).2.2.1
        (normalize ![[(1 : ℚ), 2], [5, 5]] ![[(3 : ℚ)], [5]] 0 1).2.2.2 0 1 =
        ![[(1 : ℚ), 2], [5, 5]] :=
  ⟨by decide, denormalize_normalize_roundtrip ![[(1 : ℚ), 2], [5, 5]] ![[(3 : ℚ)], [5]] 0 1
    (by decide)⟩

/-- C8: in `normalize`, the returned per-column minimum and maximum are taken
over the concatenation of train and test; the divisor of every column is
nonzero (so no division by zero occurs); and a column whose maximum equals its
minimum has divisor `1` and every entry of that column in both the scaled
train table and the scaled test table equals `range_min`. -/
theorem normalize_zero_range_safe {c : ℕ} (train test : Fin c → List ℚ)
    (range_min range_max : ℚ) (j : Fin c) :
    (normalize train test range_min range_max).2.2.1 j = colMin (train j ++ test j)
    ∧ (normalize train test range_min range_max).2.2.2 j = colMax (train j ++ test j)
    ∧ normDifference (colMin (train j ++ test j)) (colMax (train j ++ test j)) ≠ 0
    ∧ (colMax (train j ++ test j) = colMin (train j ++ test j) →
        normDifference (colMin (train j ++ test j)) (colMax (train j ++ test j)) = 1
        ∧ (∀ v ∈ (normalize train test range_min range_max).1 j, v = range_min)
        ∧ (∀ v ∈ (normalize train test range_min range_max).2.1 j, v = range_min)) := by
  have hconst : colMax (train j ++ test j) = colMin (train j ++ test j) →
      ∀ w ∈ train j ++ test j,
        ((w - colMin (train j ++ test j)) /
            normDifference (colMin (train j ++ test j)) (colMax (train j ++ test j))) *
            (range_max - range_min) + range_min = range_min := by
    intro hzero w hw2
    have h1 : colMin (train j ++ test j) ≤ w := colMin_le_of_mem hw2
    have h2 : w ≤ colMax (train j ++ test j) := le_colMax_of_mem hw2
    have hwmin : w = colMin (train j ++ test j) := le_antisymm (hzero ▸ h2) h1
    rw [hwmin]
    simp
  refine ⟨rfl, rfl, normDifference_ne_zero _ _, fun hzero => ⟨?_, ?_, ?_⟩⟩
  · unfold normDifference
    simp [hzero]
  · intro v hv
    simp only [normalize, List.mem_map] at hv
    obtain ⟨w, hw, hweq⟩ := hv
    rw [← hweq]
    exact hconst hzero w (List.mem_append_left _ hw)
  · intro v hv
    simp only [normalize, List.mem_map] at hv
    obtain ⟨w, hw, hweq⟩ := hv
    rw [← hweq]
    exact hconst hzero w (List.mem_append_right _ hw)

/-- Witness for C8 on a concrete pair of one-column tables of constant value:
the zero-range condition holds there, the divisor is `1`, and every scaled
entry of the column — in the train table and in the test table — equals
`range_min = 2`. -/
theorem normalize_zero_range_safe_witness :
    normDifference (colMin ([(7 : ℚ), 7] ++ [7])) (colMax ([(7 : ℚ), 7] ++ [7])) = 1
    ∧ (∀ v ∈ (normalize ![[(7 : ℚ), 7]] ![[(7 : ℚ)]] 2 3).1 0, v = 2)
    ∧ (∀ v ∈ (normalize ![[(7 : ℚ), 7]] ![[(7 : ℚ)]] 2 3).2.1 0, v = 2) :=
  (normalize_zero_range_safe ![[(7 : ℚ), 7]] ![[(7 : ℚ)]] 2 3 0).2.2.2 (by decide)

/-! ### Hyperparameter search harness -/

/-- Python `int()` applied to a rational: truncation toward zero. -/
def pyInt (q : ℚ) : ℤ :=
  if 0 ≤ q then ⌊q⌋ else ⌈q⌉

/-- The split index `split_point = int(gridsearch_training_frac * len(train_X.index))`. -/
def gridsearchSplitPoint (frac : ℚ) (nrows : ℕ) : ℕ :=
  (pyInt (frac * nrows)).toNat

/-- The prefix/suffix split `iloc[0:split_point]` / `iloc[split_point:len]` of one table. -/
def gridsearchSplit {α : Type} (frac : ℚ) (rows : List α) : List α × List α :=
  (rows.take (gridsearchSplitPoint frac rows.length),
   rows.drop (gridsearchSplitPoint frac rows.length))

/-- Embedding of `generate_parameter_combinations`: the parameter dictionary is
already resolved to its ordered list of candidate-value lists (Python dicts
preserve insertion order).  The `[]` case never arises in the source, which
always passes at least one parameter. -/
def generateParameterCombinations : List (List ℚ) → List (List ℚ)
  | [] => []
  | [values] => values.map (fun v => [v])
  | values :: rest =>
      values.flatMap (fun v => (generateParameterCombinations rest).map (fun comb => v :: comb))

/-- Combination number `k` of the lexicographic enumeration of the cartesian
product in which the first declared parameter varies slowest and the last
varies fastest (mixed-radix decoding of `k`). -/
def lexCombo : List (List ℚ) → ℕ → List ℚ
  | [], _ => []
  | values :: rest, k =>
      values.getD (k / (rest.map List.length).prod) 0
        :: lexCombo rest (k % (rest.map List.length).prod)

/-- The exact value of `sys.float_info.max` (IEEE-754 double). -/
def floatMax : ℚ := 2 ^ 1024 - 2 ^ 971

/-- Initial `best_error` of `gridsearch_reservoir_computing`.  For a metric
name other than `"mse"` and `"accuracy"` the Python variable is left unbound;
it is modelled by an arbitrary value (`0`), which is provably never read
because the scoring branches are also skipped for such metrics. -/
def sentinelScore (error : String) : ℚ :=
  if error = "mse" then floatMax else if error = "accuracy" then 0 else 0

/-- One iteration of the combination loop: score the combination under the
selected metric and keep it only on a strict improvement. -/
def selectStep (error : String) (evalMse evalAcc : List ℚ → ℚ)
    (best : ℚ × List ℚ) (comb : List ℚ) : ℚ × List ℚ :=
  if error = "mse" then
    let mse := evalMse comb
    if mse < best.1 then (mse, comb) else best
  else if error = "accuracy" then
    let acc := evalAcc comb
    if best.1 < acc then (acc, comb) else best
  else best

/-- The whole combination loop, starting from `(best_error, best_combination)
= (sentinel, [])`. -/
def selectLoop (error : String) (evalMse evalAcc : List ℚ → ℚ)
    (combos : List (List ℚ)) : ℚ × List ℚ :=
  combos.foldl (selectStep error evalMse evalAcc) (sentinelScore error, [])

/-- The internal train/validation split of the gridsearch harness, computed
once before the combination loop.  The validation slice of `train_y` is
`iloc[split_point:len(train_X.index)]`, hence the inner `take trainX.length`. -/
def gridsearchSplitTuple (frac : ℚ) (trainX trainY : List (List ℚ)) :
    List (List ℚ) × List (List ℚ) × List (List ℚ) × List (List ℚ) :=
  let sp := gridsearchSplitPoint frac trainX.length
  (trainX.take sp, trainY.take sp, trainX.drop sp, (trainY.take trainX.length).drop sp)

/-- Embedding of `gridsearch_reservoir_computing`.  The call to
`reservoir_computing` followed by the metric evaluation on the validation
slice is abstracted into the scoring functions `evalMse` (mean squared error
of the probability predictions) and `evalAcc` (accuracy of the class
predictions), both taking the combination and the internal split.  The final
indexing `best_combination[keys.index(...)]` on the empty list raises
`IndexError`, modelled by `Except.error`.  The returned pair is
`(reservoir_size, a)`, positions 1 and 0 of the combination. -/
def gridsearchRC (error : String) (frac : ℚ) (trainX trainY : List (List ℚ))
    (evalMse evalAcc :
      List ℚ → List (List ℚ) × List (List ℚ) × List (List ℚ) × List (List ℚ) → ℚ) :
    Except Unit (ℚ × ℚ) :=
  let combos := generateParameterCombinations [[0.6, 0.8], [400, 700, 1000]]
  let split := gridsearchSplitTuple frac trainX trainY
  let best := selectLoop error (fun comb => evalMse comb split)
    (fun comb => evalAcc comb split) combos
  match best.2 with
  | [] => Except.error ()
  | comb => Except.ok (comb.getD 1 0, comb.getD 0 0)

lemma length_flatMap_const {β γ : Type*} (l : List β) (f : β → List γ) (B : ℕ)
    (h : ∀ b ∈ l, (f b).length = B) : (l.flatMap f).length = l.length * B := by
  induction l with
  | nil => simp
  | cons b l ih =>
    simp only [List.flatMap_cons, List.length_append, List.length_cons]
    rw [h b (List.mem_cons_self b l), ih (fun x hx => h x (List.mem_cons_of_mem b hx))]
    ring

lemma getD_flatMap_const {β γ : Type*} (l : List β) (f : β → List γ) (B : ℕ)
    (h : ∀ b ∈ l, (f b).length = B) (b0 : β) (d : γ) :
    ∀ k, k < l.length * B → (l.flatMap f).getD k d = (f (l.getD (k / B) b0)).getD (k % B) d := by
  induction l with
  | nil => intro k hk; simp at hk
  | cons b l ih =>
    intro k hk
    have hBpos : 0 < B := by
      rcases Nat.eq_zero_or_pos B with hB | hB
      · subst hB; simp at hk
      · exact hB
    have hfb : (f b).length = B := h b (List.mem_cons_self b l)
    by_cases hkB : k < B
    · rw [List.flatMap_cons, List.getD_append _ _ _ _ (by rw [hfb]; exact hkB),
        Nat.div_eq_of_lt hkB, Nat.mod_eq_of_lt hkB]
      rfl
    · push_neg at hkB
      have hk2 : k - B < l.length * B := by
        rw [List.length_cons, Nat.succ_mul] at hk
        omega
      have hdiv : k / B = (k - B) / B + 1 := by
        conv_lhs => rw [show k = (k - B) + B by omega]
        rw [Nat.add_div_right _ hBpos]
      have hmod : k % B = (k - B) % B := by
        conv_lhs => rw [show k = (k - B) + B by omega]
        rw [Nat.add_mod_right]
      rw [List.flatMap_cons, List.getD_append_right _ _ _ _ (by rw [hfb]; exact hkB), hfb,
        ih (fun x hx => h x (List.mem_cons_of_mem b hx)) (k - B) hk2, hdiv, hmod]
      rfl

lemma getD_map_in_range {β γ : Type*} (l : List β) (f : β → γ) (b0 : β) (d : γ) :
    ∀ k, k < l.length → (l.map f).getD k d = f (l.getD k b0) := by
  induction l with
  | nil => intro k hk; simp at hk
  | cons b l ih =>
    intro k hk
    cases k with
    | zero => rfl
    | succ k2 =>
      simp only [List.map_cons, List.getD_cons_succ]
      exact ih k2 (by simpa using hk)

lemma generateParameterCombinations_length (ls : List (List ℚ)) (hls : ls ≠ []) :
    (generateParameterCombinations ls).length = (ls.map List.length).prod := by
  induction ls with
  | nil => exact absurd rfl hls
  | cons values rest ih =>
    cases rest with
    | nil => simp [generateParameterCombinations]
    | cons l2 rest2 =>
      rw [show generateParameterCombinations (values :: l2 :: rest2) =
          values.flatMap (fun v =>
            (generateParameterCombinations (l2 :: rest2)).map (fun comb => v :: comb)) from rfl]
      rw [length_flatMap_const values _ ((l2 :: rest2).map List.length).prod
        (fun b _ => by rw [List.length_map, ih (by simp)])]
      simp [mul_comm]

lemma generateParameterCombinations_getD (ls : List (List ℚ)) (hls : ls ≠ []) :
    ∀ k, k < (ls.map List.length).prod →
      (generateParameterCombinations ls).getD k [] = lexCombo ls k := by
  induction ls with
  | nil => exact absurd rfl hls
  | cons values rest ih =>
    intro k hk
    cases rest with
    | nil =>
      simp only [List.map_cons, List.map_nil, List.prod_cons, List.prod_nil, mul_one] at hk
      rw [show generateParameterCombinations [values] = values.map (fun v => [v]) from rfl]
      rw [getD_map_in_range values _ 0 [] k hk]
      rw [show lexCombo [values] k = values.getD (k / 1) 0 :: lexCombo [] (k % 1) from rfl]
      rw [Nat.div_one]
      rfl
    | cons l2 rest2 =>
      set rest := l2 :: rest2 with hrest
      have hrne : rest ≠ [] := by simp [hrest]
      set B := (rest.map List.length).prod with hB
      have hlen : ∀ b ∈ values, ((generateParameterCombinations rest).map
          (fun comb => b :: comb)).length = B := by
        intro b _
        rw [List.length_map, generateParameterCombinations_length rest hrne]
      simp only [List.map_cons, List.prod_cons, ← hB] at hk
      have hkB : k < values.length * B := hk
      have hBpos : 0 < B := by
        rcases Nat.eq_zero_or_pos B with h0 | h0
        · rw [h0, mul_zero] at hkB; omega
        · exact h0
      rw [show generateParameterCombinations (values :: rest) =
          values.flatMap (fun v =>
            (generateParameterCombinations rest).map (fun comb => v :: comb)) from rfl]
      rw [getD_flatMap_const values _ B hlen 0 [] k hkB]
      have hmodB : k % B < (generateParameterCombinations rest).length := by
        rw [generateParameterCombinations_length rest hrne, ← hB]
        exact Nat.mod_lt _ hBpos
      rw [getD_map_in_range (generateParameterCombinations rest) _ [] [] (k % B) hmodB]
      rw [show lexCombo (values :: rest) k =
          values.getD (k / B) 0 :: lexCombo rest (k % B) from rfl]
      congr 1
      exact ih hrne (k % B) (Nat.mod_lt _ hBpos)

/-- C6: `generate_parameter_combinations` enumerates exactly the full cartesian
product of the candidate-value lists — as many combinations as the product of
the list lengths, combination `k` being the mixed-radix decoding of `k` with
the first declared parameter varying slowest and the last fastest (shown
explicitly for the source's grid `a ∈ {0.6, 0.8}`,
`reservoir_size ∈ {400, 700, 1000}`); and the gridsearch split is the
unshuffled prefix of the first `int(frac · n)` rows together with the
remaining suffix, every combination being scored by `gridsearchRC` on that
one split, computed once. -/
theorem gridsearch_full_cartesian_product_and_split {α : Type} (ls : List (List ℚ))
    (hls : ls ≠ []) (frac : ℚ) (rows : List α) :
    (generateParameterCombinations ls).length = (ls.map List.length).prod
    ∧ (∀ k, k < (ls.map List.length).prod →
        (generateParameterCombinations ls).getD k [] = lexCombo ls k)
    ∧ generateParameterCombinations [[0.6, 0.8], [400, 700, 1000]] =
        [[0.6, 400], [0.6, 700], [0.6, 1000], [0.8, 400], [0.8, 700], [0.8, 1000]]
    ∧ (gridsearchSplit frac rows).1 = rows.take (pyInt (frac * rows.length)).toNat
    ∧ (gridsearchSplit frac rows).2 = rows.drop (pyInt (frac * rows.length)).toNat
    ∧ (gridsearchSplit frac rows).1 ++ (gridsearchSplit frac rows).2 = rows
    ∧ (∀ error trainX trainY evalMse evalAcc,
        gridsearchRC error frac trainX trainY evalMse evalAcc =
          match (selectLoop error
              (fun comb => evalMse comb (gridsearchSplitTuple frac trainX trainY))
              (fun comb => evalAcc comb (gridsearchSplitTuple frac trainX trainY))
              (generateParameterCombinations [[0.6, 0.8], [400, 700, 1000]])).2 with
          | [] => Except.error ()
          | comb => Except.ok (comb.getD 1 0, comb.getD 0 0)) :=
  ⟨generateParameterCombinations_length ls hls,
   generateParameterCombinations_getD ls hls,
   rfl,
   rfl, rfl,
   List.take_append_drop _ rows,
   fun _ _ _ _ _ => rfl⟩

/-- Witness for C6 at the source grid, `frac = 0.7` and a concrete five-row
table (the split point is `int(0.7 · 5) = 3`). -/
theorem gridsearch_full_cartesian_product_and_split_witness :
    ([[(0.6 : ℚ), 0.8], [400, 700, 1000]] ≠ ([] : List (List ℚ)))
    ∧ ((generateParameterCombinations [[(0.6 : ℚ), 0.8], [400, 700, 1000]]).length =
        (([[(0.6 : ℚ), 0.8], [400, 700, 1000]] : List (List ℚ)).map List.length).prod
    ∧ (∀ k, k < (([[(0.6 : ℚ), 0.8], [400, 700, 1000]] : List (List ℚ)).map List.length).prod →
        (generateParameterCombinations [[(0.6 : ℚ), 0.8], [400, 700, 1000]]).getD k [] =
          lexCombo [[(0.6 : ℚ), 0.8], [400, 700, 1000]] k)
    ∧ generateParameterCombinations [[0.6, 0.8], [400, 700, 1000]] =
        [[0.6, 400], [0.6, 700], [0.6, 1000], [0.8, 400], [0.8, 700], [0.8, 1000]]
    ∧ (gridsearchSplit 0.7 [10, 20, 30, 40, 50]).1 =
        [10, 20, 30, 40, 50].take (pyInt (0.7 * ([10, 20, 30, 40, 50] : List ℕ).length)).toNat
    ∧ (gridsearchSplit 0.7 [10, 20, 30, 40, 50]).2 =
        [10, 20, 30, 40, 50].drop (pyInt (0.7 * ([10, 20, 30, 40, 50] : List ℕ).length)).toNat
    ∧ (gridsearchSplit 0.7 [10, 20, 30, 40, 50]).1 ++ (gridsearchSplit 0.7 [10, 20, 30, 40, 50]).2 =
        [10, 20, 30, 40, 50]
    ∧ (∀ error trainX trainY evalMse evalAcc,
        gridsearchRC error 0.7 trainX trainY evalMse evalAcc =
          match (selectLoop error
              (fun comb => evalMse comb (gridsearchSplitTuple 0.7 trainX trainY))
              (fun comb => evalAcc comb (gridsearchSplitTuple 0.7 trainX trainY))
              (generateParameterCombinations [[0.6, 0.8], [400, 700, 1000]])).2 with
          | [] => Except.error ()
          | comb => Except.ok (comb.getD 1 0, comb.getD 0 0))) :=
  ⟨by decide,
   gridsearch_full_cartesian_product_and_split [[(0.6 : ℚ), 0.8], [400, 700, 1000]]
     (by decide) 0.7 [10, 20, 30, 40, 50]⟩

/-! ### Strict-improvement selection keeps the first-seen optimum -/

section Selection

variable {α : Type*} [LinearOrder α] {C : Type*}

/-- Generic form of the combination loop: keep a candidate only when its score
strictly improves on the incumbent. -/
def selBest (b0 : α) (init : C) (score : C → α) (l : List C) : α × C :=
  l.foldl (fun best c => if score c < best.1 then (score c, c) else best) (b0, init)

/-- The first element of the list attaining the minimal score. -/
def firstBest (score : C → α) (l : List C) : Option C :=
  l.find? (fun c => l.all (fun c2 => decide (score c ≤ score c2)))

lemma selBest_cons (b0 : α) (init : C) (score : C → α) (c : C) (l : List C) :
    selBest b0 init score (c :: l) =
      if score c < b0 then selBest (score c) c score l else selBest b0 init score l := by
  by_cases h : score c < b0 <;> simp [selBest, h]

lemma selBest_no_improvement (score : C → α) (l : List C) (b0 : α) (init : C)
    (h : ∀ c ∈ l, ¬ score c < b0) : selBest b0 init score l = (b0, init) := by
  induction l with
  | nil => rfl
  | cons c l ih =>
    rw [selBest_cons, if_neg (h c (List.mem_cons_self c l))]
    exact ih (fun x hx => h x (List.mem_cons_of_mem c hx))

lemma selBest_first_min (score : C → α) (l : List C) (c : C) (b0 : α) (init : C)
    (hlt : score c < b0) (hmin : ∀ c2 ∈ l, score c ≤ score c2) :
    selBest b0 init score (c :: l) = (score c, c) := by
  rw [selBest_cons, if_pos hlt]
  exact selBest_no_improvement score l (score c) c (fun x hx => not_lt.mpr (hmin x hx))

lemma exists_min_mem (score : C → α) (l : List C) (hl : l ≠ []) :
    ∃ m ∈ l, ∀ x ∈ l, score m ≤ score x := by
  induction l with
  | nil => exact absurd rfl hl
  | cons c l ih =>
    cases l with
    | nil =>
      exact ⟨c, List.mem_cons_self c [], fun x hx => by
        rcases List.mem_cons.mp hx with h | h
        · rw [h]
        · cases h⟩
    | cons c2 l2 =>
      obtain ⟨m, hm, hmin⟩ := ih (by simp)
      by_cases hc : score c ≤ score m
      · refine ⟨c, List.mem_cons_self _ _, fun x hx => ?_⟩
        rcases List.mem_cons.mp hx with h | h
        · rw [h]
        · exact le_trans hc (hmin x h)
      · refine ⟨m, List.mem_cons_of_mem c hm, fun x hx => ?_⟩
        rcases List.mem_cons.mp hx with h | h
        · rw [h]; exact le_of_not_le hc
        · exact hmin x h

lemma find?_congr_mem {p q : C → Bool} : ∀ (l : List C), (∀ x ∈ l, p x = q x) →
    l.find? p = l.find? q := by
  intro l
  induction l with
  | nil => intro _; rfl
  | cons c l ih =>
    intro h
    have hc := h c (List.mem_cons_self c l)
    by_cases hp : p c = true
    · rw [List.find?_cons_of_pos _ hp, List.find?_cons_of_pos _ (hc ▸ hp)]
    · have hp2 : p c = false := Bool.eq_false_iff.mpr hp
      rw [List.find?_cons_of_neg _ (by rw [hp2]; exact Bool.false_ne_true),
        List.find?_cons_of_neg _ (by rw [← hc, hp2]; exact Bool.false_ne_true)]
      exact ih (fun x hx => h x (List.mem_cons_of_mem c hx))

/-- The strict-improvement loop retains the first element attaining the best
score, provided some element beats the initial sentinel. -/
lemma selBest_eq_firstBest (score : C → α) :
    ∀ (l : List C) (b0 : α) (init : C), (∃ c ∈ l, score c < b0) →
      (selBest b0 init score l).2 = (firstBest score l).getD init := by
  intro l
  induction l with
  | nil => intro b0 init h; simp at h
  | cons c l ih =>
    intro b0 init h
    by_cases hA : ∀ c2 ∈ l, score c ≤ score c2
    · have hcb : score c < b0 := by
        obtain ⟨x, hx, hxb⟩ := h
        rcases List.mem_cons.mp hx with hxc | hxl
        · rwa [← hxc]
        · exact lt_of_le_of_lt (hA x hxl) hxb
      rw [selBest_first_min score l c b0 init hcb hA]
      have hpred : ((c :: l).all (fun c2 => decide (score c ≤ score c2))) = true := by
        rw [List.all_eq_true]
        intro x hx
        rcases List.mem_cons.mp hx with hxc | hxl
        · rw [hxc]; exact decide_eq_true_eq.mpr (le_refl _)
        · exact decide_eq_true_eq.mpr (hA x hxl)
      unfold firstBest
      rw [List.find?_cons]
      simp only [hpred]
      rfl
    · push_neg at hA
      obtain ⟨c2, hc2, hlt2⟩ := hA
      have hlt2 : score c2 < score c := hlt2
      obtain ⟨m, hm, hmmin⟩ := exists_min_mem score l (List.ne_nil_of_mem hc2)
      have hpredc : ((c :: l).all (fun x => decide (score c ≤ score x))) = false := by
        rw [List.all_eq_false]
        exact ⟨c2, List.mem_cons_of_mem c hc2, by simpa using not_le.mpr hlt2⟩
      have hcongr : ∀ x ∈ l,
          ((c :: l).all (fun y => decide (score x ≤ score y))) =
            (l.all (fun y => decide (score x ≤ score y))) := by
        intro x hx
        rw [List.all_cons]
        by_cases hall : (l.all (fun y => decide (score x ≤ score y))) = true
        · rw [hall, Bool.and_true]
          have hxle : score x ≤ score c2 :=
            decide_eq_true_eq.mp (List.all_eq_true.mp hall c2 hc2)
          exact decide_eq_true_eq.mpr (le_of_lt (lt_of_le_of_lt hxle hlt2))
        · rw [Bool.eq_false_iff.mpr hall, Bool.and_false]
      have hfirst : firstBest score (c :: l) = firstBest score l := by
        unfold firstBest
        rw [List.find?_cons]
        simp only [hpredc]
        exact find?_congr_mem l hcongr
      have hsome : ∃ y, firstBest score l = some y := by
        rw [← Option.isSome_iff_exists]
        unfold firstBest
        rw [List.find?_isSome]
        exact ⟨m, hm, List.all_eq_true.mpr (fun x hx => decide_eq_true_eq.mpr (hmmin x hx))⟩
      obtain ⟨y, hy⟩ := hsome
      rw [selBest_cons]
      by_cases hcb : score c < b0
      · rw [if_pos hcb, ih (score c) c ⟨m, hm, lt_of_le_of_lt (hmmin c2 hc2) hlt2⟩,
          hfirst, hy]
        rfl
      · rw [if_neg hcb]
        have himp : ∃ x ∈ l, score x < b0 := by
          obtain ⟨x, hx, hxb⟩ := h
          rcases List.mem_cons.mp hx with hxc | hxl
          · exact absurd (hxc ▸ hxb) hcb
          · exact ⟨x, hxl, hxb⟩
        obtain ⟨x, hx, hxb⟩ := himp
        rw [ih b0 init ⟨x, hx, hxb⟩, hfirst, hy]

end Selection

/-- The first combination attaining the minimal `mse` score. -/
def firstMin (score : List ℚ → ℚ) (l : List (List ℚ)) : Option (List ℚ) :=
  l.find? (fun c => l.all (fun c2 => decide (score c ≤ score c2)))

/-- The first combination attaining the maximal `accuracy` score. -/
def firstMax (score : List ℚ → ℚ) (l : List (List ℚ)) : Option (List ℚ) :=
  l.find? (fun c => l.all (fun c2 => decide (score c2 ≤ score c)))

lemma selectLoop_eq_selBest_mse (em ea : List ℚ → ℚ) (combos : List (List ℚ)) :
    selectLoop "mse" em ea combos = selBest floatMax [] em combos := rfl

lemma selectLoop_eq_selBest_acc (em ea : List ℚ → ℚ) (combos : List (List ℚ)) :
    selectLoop "accuracy" em ea combos =
      selBest (α := ℚᵒᵈ) (OrderDual.toDual 0) []
        (fun c => OrderDual.toDual (ea c)) combos := by
  unfold selectLoop selBest
  congr 1

lemma firstMax_eq_firstBest_dual (ea : List ℚ → ℚ) (combos : List (List ℚ)) :
    firstMax ea combos =
      firstBest (α := ℚᵒᵈ) (fun c => OrderDual.toDual (ea c)) combos := by
  unfold firstMax firstBest
  apply find?_congr_mem
  intro x _
  congr 1

/-- C7: under either metric, score comparisons in
`gridsearch_reservoir_computing` are strict, so the retained combination is
the first-enumerated one attaining the best validation score — a later
combination with an equal score never replaces the incumbent.  (`firstMin` /
`firstMax` return the first element attaining the optimum.)  The hypotheses
state that some combination beats the initial sentinel, i.e. that a best
score is attained at all. -/
theorem gridsearch_strict_comparison_keeps_first (em ea : List ℚ → ℚ)
    (combos : List (List ℚ))
    (hm : ∃ c ∈ combos, em c < floatMax) (ha : ∃ c ∈ combos, 0 < ea c) :
    (selectLoop "mse" em ea combos).2 = (firstMin em combos).getD []
    ∧ (selectLoop "accuracy" em ea combos).2 = (firstMax ea combos).getD [] := by
  constructor
  · rw [selectLoop_eq_selBest_mse]
    exact selBest_eq_firstBest em combos floatMax [] hm
  · rw [selectLoop_eq_selBest_acc, firstMax_eq_firstBest_dual]
    exact selBest_eq_firstBest (α := ℚᵒᵈ) (fun c => OrderDual.toDual (ea c)) combos
      (OrderDual.toDual 0) [] (by
        obtain ⟨c, hc, hlt⟩ := ha
        exact ⟨c, hc, hlt⟩)

/-- Witness for C7 on three combinations that all tie: the retained
combination is the first-enumerated one under both metrics. -/
theorem gridsearch_strict_comparison_keeps_first_witness :
    (∃ c ∈ [[(1 : ℚ)], [2], [3]], (fun _ : List ℚ => (3 : ℚ)) c < floatMax)
    ∧ (∃ c ∈ [[(1 : ℚ)], [2], [3]], (0 : ℚ) < (fun _ : List ℚ => (2 : ℚ)) c)
    ∧ ((selectLoop "mse" (fun _ : List ℚ => (3 : ℚ)) (fun _ : List ℚ => (2 : ℚ))
          [[(1 : ℚ)], [2], [3]]).2 =
        (firstMin (fun _ : List ℚ => (3 : ℚ)) [[(1 : ℚ)], [2], [3]]).getD []
    ∧ (selectLoop "accuracy" (fun _ : List ℚ => (3 : ℚ)) (fun _ : List ℚ => (2 : ℚ))
          [[(1 : ℚ)], [2], [3]]).2 =
        (firstMax (fun _ : List ℚ => (2 : ℚ)) [[(1 : ℚ)], [2], [3]]).getD []) :=
  ⟨⟨[1], by decide, by norm_num [floatMax]⟩, ⟨[1], by decide, by norm_num⟩,
   gridsearch_strict_comparison_keeps_first (fun _ => 3) (fun _ => 2) [[(1 : ℚ)], [2], [3]]
     ⟨[1], by decide, by norm_num [floatMax]⟩ ⟨[1], by decide, by norm_num⟩⟩

lemma selectLoop_other_metric (error : String) (h1 : error ≠ "mse") (h2 : error ≠ "accuracy")
    (em ea : List ℚ → ℚ) (combos : List (List ℚ)) :
    selectLoop error em ea combos = (sentinelScore error, []) := by
  unfold selectLoop
  generalize (sentinelScore error, ([] : List ℚ)) = init
  induction combos generalizing init with
  | nil => rfl
  | cons c l ih =>
    rw [List.foldl_cons, show selectStep error em ea init c = init by
      unfold selectStep; rw [if_neg h1, if_neg h2]]
    exact ih init

lemma selectLoop_acc_all_zero (em ea : List ℚ → ℚ) (combos : List (List ℚ))
    (h : ∀ c ∈ combos, ea c = 0) :
    selectLoop "accuracy" em ea combos = (0, []) := by
  unfold selectLoop
  have hsent : sentinelScore "accuracy" = 0 := rfl
  rw [hsent]
  induction combos with
  | nil => rfl
  | cons c l ih =>
    rw [List.foldl_cons, show selectStep "accuracy" em ea (0, []) c = (0, []) by
      unfold selectStep
      rw [if_neg (by decide : ¬ ("accuracy" : String) = "mse"), if_pos rfl,
        if_neg (by rw [h c (List.mem_cons_self c l)]; exact lt_irrefl 0)]]
    exact ih (fun x hx => h x (List.mem_cons_of_mem c hx))

/-- C9: `gridsearch_reservoir_computing` yields a result only when some
combination strictly improves on the sentinel.  For a metric name outside
`{mse, accuracy}` no scoring update ever fires, and when the metric is
`accuracy` and every combination scores exactly `0` no update fires either;
in both cases `best_combination` stays the empty list and the final indexing
raises (`Except.error`) instead of returning the first-seen combination. -/
theorem gridsearch_no_winner_raises :
    (∀ (error : String), error ≠ "mse" → error ≠ "accuracy" →
      ∀ (frac : ℚ) (trainX trainY : List (List ℚ)) evalMse evalAcc,
        gridsearchRC error frac trainX trainY evalMse evalAcc = Except.error ())
    ∧ (∀ (frac : ℚ) (trainX trainY : List (List ℚ)) evalMse evalAcc,
        (∀ comb ∈ generateParameterCombinations [[0.6, 0.8], [400, 700, 1000]],
          evalAcc comb (gridsearchSplitTuple frac trainX trainY) = 0) →
        gridsearchRC "accuracy" frac trainX trainY evalMse evalAcc = Except.error ()) := by
  constructor
  · intro error h1 h2 frac trainX trainY evalMse evalAcc
    simp only [gridsearchRC]
    rw [selectLoop_other_metric error h1 h2]
  · intro frac trainX trainY evalMse evalAcc h
    simp only [gridsearchRC]
    rw [selectLoop_acc_all_zero _ _ _ h]

/-- Witness for C9: a junk metric name and an all-zero accuracy scorer on a
concrete one-row table both end in the `IndexError` path. -/
theorem gridsearch_no_winner_raises_witness :
    gridsearchRC "foo" 0.7 [[1]] [[1]] (fun _ _ => 0) (fun _ _ => 0) = Except.error ()
    ∧ gridsearchRC "accuracy" 0.7 [[1]] [[1]] (fun _ _ => 0) (fun _ _ => 0) = Except.error () :=
  ⟨gridsearch_no_winner_raises.1 "foo" (by decide) (by decide) 0.7 [[1]] [[1]] _ _,
   gridsearch_no_winner_raises.2 0.7 [[1]] [[1]] _ _ (fun _ _ => rfl)⟩

/-! ### Echo state network core

The external numerics are abstracted: `tanh` stands for `np.tanh`, `arctanh`
for `np.arctanh` and `pinv` for `scipy.linalg.pinv`; none of the structural
claims depend on their values.  `us t` is row `t` of the (normalized) input
table and `ys t` is row `t` of the (normalized) target table. -/

section ESN

variable {ni no r : ℕ}

/-- Leaky-integrated reservoir update: embedding of
`x = (1-a)*x + a*np.tanh(np.dot(Win, np.vstack(np.insert(u, 0, 1))) +
np.dot(W, x) + np.dot(Wback, np.vstack(y_prev)))`. -/
def esnStep (tanh : ℚ → ℚ) (Win : Matrix (Fin r) (Fin (ni + 1)) ℚ)
    (W : Matrix (Fin r) (Fin r) ℚ) (Wback : Matrix (Fin r) (Fin no) ℚ) (a : ℚ)
    (x : Fin r → ℚ) (u : Fin ni → ℚ) (yprev : Fin no → ℚ) : Fin r → ℚ :=
  fun i => (1 - a) * x i
    + a * tanh ((Win.mulVec (Fin.cons 1 u) + W.mulVec x + Wback.mulVec yprev) i)

/-- One pass of the training loop of `reservoir_computing`: starting from the
zero activation and no collected rows, process time steps `0, …, t-1`.  Each
step teacher-forces the true previous target (`y_prev`, the zero vector at
`t = 0`) and, from the washout period `10` on, stores the row `[1; u_t; x_t]`
into the design matrix (`X[t - washout_period, :] = np.hstack(...)`). -/
def esnTrainAux (tanh : ℚ → ℚ) (Win : Matrix (Fin r) (Fin (ni + 1)) ℚ)
    (W : Matrix (Fin r) (Fin r) ℚ) (Wback : Matrix (Fin r) (Fin no) ℚ) (a : ℚ)
    (us : ℕ → Fin ni → ℚ) (ys : ℕ → Fin no → ℚ) :
    ℕ → (Fin r → ℚ) × List (Fin (ni + r + 1) → ℚ)
  | 0 => (fun _ => 0, [])
  | t + 1 =>
    let p := esnTrainAux tanh Win W Wback a us ys t
    let x2 := esnStep tanh Win W Wback a p.1 (us t)
      (if t = 0 then fun _ => 0 else ys (t - 1))
    (x2, if 10 ≤ t then p.2 ++ [Fin.cons 1 (Fin.append (us t) x2)] else p.2)

/-- The reservoir state written the way the claim states it (spec-side
recurrence, to be compared with the loop): the state starts as the zero
vector and `x_t = (1-a)·x_{t-1} + a·tanh(W_in·[1;u_t] + W·x_{t-1} +
W_back·y_{t-1})` with the teacher-forced `y_{t-1}` (zero at `t = 0`).
`esnStateRec t` is the state after processing steps `0, …, t-1`. -/
def esnStateRec (tanh : ℚ → ℚ) (Win : Matrix (Fin r) (Fin (ni + 1)) ℚ)
    (W : Matrix (Fin r) (Fin r) ℚ) (Wback : Matrix (Fin r) (Fin no) ℚ) (a : ℚ)
    (us : ℕ → Fin ni → ℚ) (ys : ℕ → Fin no → ℚ) : ℕ → Fin r → ℚ
  | 0 => fun _ => 0
  | t + 1 => esnStep tanh Win W Wback a (esnStateRec tanh Win W Wback a us ys t) (us t)
      (if t = 0 then fun _ => 0 else ys (t - 1))

/-- The design matrix `X`, allocated as `np.zeros((n - 10, 1 + inputs +
reservoir_size))` (the `getD` default is the allocated zero row) and filled by
the training loop. -/
def esnDesignMatrix (tanh : ℚ → ℚ) (Win : Matrix (Fin r) (Fin (ni + 1)) ℚ)
    (W : Matrix (Fin r) (Fin r) ℚ) (Wback : Matrix (Fin r) (Fin no) ℚ) (a : ℚ)
    (us : ℕ → Fin ni → ℚ) (ys : ℕ → Fin no → ℚ) (n : ℕ) :
    Matrix (Fin (n - 10)) (Fin (ni + r + 1)) ℚ :=
  fun i j => ((esnTrainAux tanh Win W Wback a us ys n).2.getD i.val (fun _ => 0)) j

/-- The regression targets
`Yt = np.arctanh(new_train_y.iloc[10:n, :].values)`. -/
def esnYt (arctanh : ℚ → ℚ) (ys : ℕ → Fin no → ℚ) (n : ℕ) :
    Matrix (Fin (n - 10)) (Fin no) ℚ :=
  fun i j => arctanh (ys (10 + i.val) j)

/-- `Wout = np.transpose(np.dot(linalg.pinv(X), Yt))` with the Moore-Penrose
pseudo-inverse abstracted as `pinv`. -/
def esnWout (tanh arctanh : ℚ → ℚ) (Win : Matrix (Fin r) (Fin (ni + 1)) ℚ)
    (W : Matrix (Fin r) (Fin r) ℚ) (Wback : Matrix (Fin r) (Fin no) ℚ) (a : ℚ)
    (us : ℕ → Fin ni → ℚ) (ys : ℕ → Fin no → ℚ) (n : ℕ)
    (pinv : Matrix (Fin (n - 10)) (Fin (ni + r + 1)) ℚ →
      Matrix (Fin (ni + r + 1)) (Fin (n - 10)) ℚ) :
    Matrix (Fin no) (Fin (ni + r + 1)) ℚ :=
  (pinv (esnDesignMatrix tanh Win W Wback a us ys n) * esnYt arctanh ys n).transpose

/-- The network output `y = np.tanh(np.dot(Wout, np.hstack(np.insert(
np.insert(x, 0, u), 0, 1))))`. -/
def esnOut (tanh : ℚ → ℚ) (Wout : Matrix (Fin no) (Fin (ni + r + 1)) ℚ)
    (u : Fin ni → ℚ) (x : Fin r → ℚ) : Fin no → ℚ :=
  fun j => tanh (Wout.mulVec (Fin.cons 1 (Fin.append u x)) j)

/-- The loop of `predict_values_echo_state_network` after `t` iterations:
state `(x, y, Y)` holds the reservoir activation, the latest prediction and
the collected prediction rows.  At `t = 0` the feedback is the zero vector;
afterwards it is the true previous target when `per_time_step` (accessing a
`None` `y_true` raises, modelled by `Except.error`) and the network's own
previous prediction otherwise. -/
def esnPredictAux (tanh : ℚ → ℚ) (Win : Matrix (Fin r) (Fin (ni + 1)) ℚ)
    (W : Matrix (Fin r) (Fin r) ℚ) (Wback : Matrix (Fin r) (Fin no) ℚ)
    (Wout : Matrix (Fin no) (Fin (ni + r + 1)) ℚ) (a : ℚ) (per : Bool)
    (us : ℕ → Fin ni → ℚ) (ytrue : Option (ℕ → Fin no → ℚ)) :
    ℕ → Except Unit ((Fin r → ℚ) × (Fin no → ℚ) × List (Fin no → ℚ))
  | 0 => Except.ok (fun _ => 0, fun _ => 0, [])
  | t + 1 =>
    (esnPredictAux tanh Win W Wback Wout a per us ytrue t).bind fun s =>
      (if t = 0 then Except.ok (fun _ : Fin no => (0 : ℚ))
       else if per then
         match ytrue with
         | some f => Except.ok (f (t - 1))
         | none => Except.error ()
       else Except.ok s.2.1).bind fun yprev =>
        let x2 := esnStep tanh Win W Wback a s.1 (us t) yprev
        let y2 := esnOut tanh Wout (us t) x2
        Except.ok (x2, y2, s.2.2 ++ [y2])

/-- The prediction rows returned by `predict_values_echo_state_network` on an
`n`-row input table. -/
def esnPredict (tanh : ℚ → ℚ) (Win : Matrix (Fin r) (Fin (ni + 1)) ℚ)
    (W : Matrix (Fin r) (Fin r) ℚ) (Wback : Matrix (Fin r) (Fin no) ℚ)
    (Wout : Matrix (Fin no) (Fin (ni + r + 1)) ℚ) (a : ℚ) (per : Bool)
    (us : ℕ → Fin ni → ℚ) (ytrue : Option (ℕ → Fin no → ℚ)) (n : ℕ) :
    Except Unit (List (Fin no → ℚ)) :=
  (esnPredictAux tanh Win W Wback Wout a per us ytrue n).map (fun s => s.2.2)

/-- `reservoir_computing` after normalization and weight initialization: the
design-matrix allocation `np.zeros((len(train_X.index) - washout_period, 1 +
inputs + reservoir_size))` raises `ValueError` on a negative first dimension
(numpy rejects negative shapes), which aborts the call before the training
loop and before either prediction; otherwise `W_out` is fit and the train and
test predictions are produced. -/
def reservoirComputingRun (tanh arctanh : ℚ → ℚ)
    (Win : Matrix (Fin r) (Fin (ni + 1)) ℚ) (W : Matrix (Fin r) (Fin r) ℚ)
    (Wback : Matrix (Fin r) (Fin no) ℚ) (a : ℚ) (per : Bool)
    (us : ℕ → Fin ni → ℚ) (ys : ℕ → Fin no → ℚ) (n : ℕ)
    (pinv : Matrix (Fin (n - 10)) (Fin (ni + r + 1)) ℚ →
      Matrix (Fin (ni + r + 1)) (Fin (n - 10)) ℚ)
    (usTest : ℕ → Fin ni → ℚ) (ysTest : Option (ℕ → Fin no → ℚ)) (nTest : ℕ) :
    Except Unit (Matrix (Fin no) (Fin (ni + r + 1)) ℚ
      × List (Fin no → ℚ) × List (Fin no → ℚ)) :=
  if (n : ℤ) - 10 < 0 then Except.error ()
  else
    let Wout := esnWout tanh arctanh Win W Wback a us ys n pinv
    (esnPredict tanh Win W Wback Wout a per us (some ys) n).bind fun predTrain =>
      (esnPredict tanh Win W Wback Wout a per usTest ysTest nTest).map fun predTest =>
        (Wout, predTrain, predTest)

end ESN

lemma esnTrainAux_fst_succ {ni no r : ℕ} (tanh : ℚ → ℚ)
    (Win : Matrix (Fin r) (Fin (ni + 1)) ℚ) (W : Matrix (Fin r) (Fin r) ℚ)
    (Wback : Matrix (Fin r) (Fin no) ℚ) (a : ℚ) (us : ℕ → Fin ni → ℚ)
    (ys : ℕ → Fin no → ℚ) (t : ℕ) :
    (esnTrainAux tanh Win W Wback a us ys (t + 1)).1 =
      esnStep tanh Win W Wback a (esnTrainAux tanh Win W Wback a us ys t).1 (us t)
        (if t = 0 then fun _ => 0 else ys (t - 1)) := rfl

lemma esnTrainAux_snd_succ {ni no r : ℕ} (tanh : ℚ → ℚ)
    (Win : Matrix (Fin r) (Fin (ni + 1)) ℚ) (W : Matrix (Fin r) (Fin r) ℚ)
    (Wback : Matrix (Fin r) (Fin no) ℚ) (a : ℚ) (us : ℕ → Fin ni → ℚ)
    (ys : ℕ → Fin no → ℚ) (t : ℕ) :
    (esnTrainAux tanh Win W Wback a us ys (t + 1)).2 =
      if 10 ≤ t then
        (esnTrainAux tanh Win W Wback a us ys t).2
          ++ [Fin.cons 1 (Fin.append (us t) ((esnTrainAux tanh Win W Wback a us ys (t + 1)).1))]
      else (esnTrainAux tanh Win W Wback a us ys t).2 := rfl

lemma esnTrainAux_fst {ni no r : ℕ} (tanh : ℚ → ℚ)
    (Win : Matrix (Fin r) (Fin (ni + 1)) ℚ) (W : Matrix (Fin r) (Fin r) ℚ)
    (Wback : Matrix (Fin r) (Fin no) ℚ) (a : ℚ) (us : ℕ → Fin ni → ℚ)
    (ys : ℕ → Fin no → ℚ) :
    ∀ t, (esnTrainAux tanh Win W Wback a us ys t).1 =
      esnStateRec tanh Win W Wback a us ys t := by
  intro t
  induction t with
  | zero => rfl
  | succ t ih =>
    rw [esnTrainAux_fst_succ, ih]
    rfl

lemma esnTrainAux_len {ni no r : ℕ} (tanh : ℚ → ℚ)
    (Win : Matrix (Fin r) (Fin (ni + 1)) ℚ) (W : Matrix (Fin r) (Fin r) ℚ)
    (Wback : Matrix (Fin r) (Fin no) ℚ) (a : ℚ) (us : ℕ → Fin ni → ℚ)
    (ys : ℕ → Fin no → ℚ) :
    ∀ t, (esnTrainAux tanh Win W Wback a us ys t).2.length = t - 10 := by
  intro t
  induction t with
  | zero => rfl
  | succ t ih =>
    rw [esnTrainAux_snd_succ]
    split_ifs with h
    · rw [List.length_append, ih]
      simp only [List.length_cons, List.length_nil]
      omega
    · rw [ih]
      omega

lemma esnTrainAux_getD {ni no r : ℕ} (tanh : ℚ → ℚ)
    (Win : Matrix (Fin r) (Fin (ni + 1)) ℚ) (W : Matrix (Fin r) (Fin r) ℚ)
    (Wback : Matrix (Fin r) (Fin no) ℚ) (a : ℚ) (us : ℕ → Fin ni → ℚ)
    (ys : ℕ → Fin no → ℚ) :
    ∀ t i, i < t - 10 →
      (esnTrainAux tanh Win W Wback a us ys t).2.getD i (fun _ => 0) =
        Fin.cons 1 (Fin.append (us (10 + i))
          ((esnTrainAux tanh Win W Wback a us ys (10 + i + 1)).1)) := by
  intro t
  induction t with
  | zero => intro i hi; exact absurd hi (by omega)
  | succ t ih =>
    intro i hi
    by_cases h10 : 10 ≤ t
    · rw [esnTrainAux_snd_succ, if_pos h10]
      by_cases hlt : i < t - 10
      · rw [List.getD_append _ _ _ i (by rw [esnTrainAux_len]; exact hlt)]
        exact ih i hlt
      · rw [List.getD_append_right _ _ _ i (by rw [esnTrainAux_len]; omega),
          esnTrainAux_len, show i - (t - 10) = 0 by omega]
        rw [show (10 : ℕ) + i = t by omega]
        rfl
    · exact absurd hi (by omega)

/-- C1: for every training run of `reservoir_computing` (teacher forcing, leak
rate `a`, washout period `10`), the reservoir state starts as the zero vector
and follows `x_t = (1-a)·x_{t-1} + a·tanh(W_in·[1;u_t] + W·x_{t-1} +
W_back·y_{t-1})` with the true previous normalized target (zero at `t = 0`);
the rows `[1; u_t; x_t]` for `t ≥ 10` (row `i` corresponds to `t = 10 + i`)
form the design matrix; the training targets are `arctanh` of the normalized
target rows from row `10` on; and `W_out` is the transpose of
`pinv(designMatrix) · targets`. -/
theorem reservoir_training_teacher_forced_regression
    {ni no r : ℕ} (tanh arctanh : ℚ → ℚ) (Win : Matrix (Fin r) (Fin (ni + 1)) ℚ)
    (W : Matrix (Fin r) (Fin r) ℚ) (Wback : Matrix (Fin r) (Fin no) ℚ) (a : ℚ)
    (us : ℕ → Fin ni → ℚ) (ys : ℕ → Fin no → ℚ) (n : ℕ)
    (pinv : Matrix (Fin (n - 10)) (Fin (ni + r + 1)) ℚ →
      Matrix (Fin (ni + r + 1)) (Fin (n - 10)) ℚ) :
    esnStateRec tanh Win W Wback a us ys 0 = (fun _ => 0)
    ∧ (∀ t, (esnTrainAux tanh Win W Wback a us ys t).1 =
        esnStateRec tanh Win W Wback a us ys t)
    ∧ (∀ t, esnStateRec tanh Win W Wback a us ys (t + 1) =
        esnStep tanh Win W Wback a (esnStateRec tanh Win W Wback a us ys t) (us t)
          (if t = 0 then fun _ => 0 else ys (t - 1)))
    ∧ (∀ i : Fin (n - 10), ∀ j, esnDesignMatrix tanh Win W Wback a us ys n i j =
        (Fin.cons 1 (Fin.append (us (10 + i.val))
          (esnStateRec tanh Win W Wback a us ys (10 + i.val + 1))) : Fin (ni + r + 1) → ℚ) j)
    ∧ (∀ i j, esnYt arctanh ys n i j = arctanh (ys (10 + i.val) j))
    ∧ esnWout tanh arctanh Win W Wback a us ys n pinv =
        (pinv (esnDesignMatrix tanh Win W Wback a us ys n) * esnYt arctanh ys n).transpose := by
  refine ⟨rfl, esnTrainAux_fst tanh Win W Wback a us ys, fun t => rfl, ?_,
    fun i j => rfl, rfl⟩
  intro i j
  show ((esnTrainAux tanh Win W Wback a us ys n).2.getD i.val (fun _ => 0)) j = _
  rw [esnTrainAux_getD tanh Win W Wback a us ys n i.val i.isLt,
    esnTrainAux_fst tanh Win W Wback a us ys]

/-- C3: in `per_time_step` mode the prediction at each step depends only on
the weights, the inputs and the true-target rows strictly before it: two runs
whose `y_true` tables agree on rows `0 … t-1` produce identical prediction
lists over steps `0 … t`, whatever the tables contain from row `t` on. -/
theorem predict_teacher_forcing_noninterference
    {ni no r : ℕ} (tanh : ℚ → ℚ) (Win : Matrix (Fin r) (Fin (ni + 1)) ℚ)
    (W : Matrix (Fin r) (Fin r) ℚ) (Wback : Matrix (Fin r) (Fin no) ℚ)
    (Wout : Matrix (Fin no) (Fin (ni + r + 1)) ℚ) (a : ℚ) (us : ℕ → Fin ni → ℚ)
    (t : ℕ) (y1 y2 : ℕ → Fin no → ℚ)
    (hagree : ∀ i, i < t → ∀ j, y1 i j = y2 i j) :
    esnPredict tanh Win W Wback Wout a true us (some y1) (t + 1) =
      esnPredict tanh Win W Wback Wout a true us (some y2) (t + 1) := by
  unfold esnPredict
  suffices h : ∀ k, k ≤ t + 1 →
      esnPredictAux tanh Win W Wback Wout a true us (some y1) k =
        esnPredictAux tanh Win W Wback Wout a true us (some y2) k by
    rw [h (t + 1) (le_refl _)]
  intro k
  induction k with
  | zero => intro _; rfl
  | succ k ih =>
    intro hk
    simp only [esnPredictAux]
    rw [ih (by omega)]
    by_cases hk0 : k = 0
    · subst hk0; rfl
    · congr 1
      funext s
      congr 1
      rw [if_neg hk0, if_neg hk0]
      show Except.ok (y1 (k - 1)) = Except.ok (y2 (k - 1))
      exact congrArg _ (funext (fun j => hagree (k - 1) (by omega) j))

/-- Witness for C3: two one-column target tables that agree on row `0` and
differ from row `1` on give the same predictions over steps `0` and `1`. -/
theorem predict_teacher_forcing_noninterference_witness :
    (∀ i, i < 1 → ∀ j : Fin 1, (fun i2 => fun _ : Fin 1 => if i2 = 0 then (1 : ℚ) else 2) i j =
        (fun i2 => fun _ : Fin 1 => if i2 = 0 then (1 : ℚ) else 3) i j)
    ∧ @esnPredict 1 1 1 id 0 0 0 0 (4/5) true (fun _ _ => 0)
        (some (fun i2 => fun _ : Fin 1 => if i2 = 0 then (1 : ℚ) else 2)) 2 =
      @esnPredict 1 1 1 id 0 0 0 0 (4/5) true (fun _ _ => 0)
        (some (fun i2 => fun _ : Fin 1 => if i2 = 0 then (1 : ℚ) else 3)) 2 :=
  ⟨by decide,
   predict_teacher_forcing_noninterference id 0 0 0 0 (4/5) (fun _ _ => 0) 1
     (fun i2 => fun _ : Fin 1 => if i2 = 0 then (1 : ℚ) else 2)
     (fun i2 => fun _ : Fin 1 => if i2 = 0 then (1 : ℚ) else 3) (by decide)⟩

lemma esnPredictAux_none_error {ni no r : ℕ} (tanh : ℚ → ℚ)
    (Win : Matrix (Fin r) (Fin (ni + 1)) ℚ) (W : Matrix (Fin r) (Fin r) ℚ)
    (Wback : Matrix (Fin r) (Fin no) ℚ) (Wout : Matrix (Fin no) (Fin (ni + r + 1)) ℚ)
    (a : ℚ) (us : ℕ → Fin ni → ℚ) :
    ∀ n, 2 ≤ n →
      esnPredictAux tanh Win W Wback Wout a true us none n = Except.error () := by
  intro n
  induction n with
  | zero => intro h; exact absurd h (by omega)
  | succ t ih =>
    intro h
    by_cases h2 : 2 ≤ t
    · simp only [esnPredictAux]
      rw [ih h2]
      rfl
    · have ht : t = 1 := by omega
      subst ht
      rfl

/-- C5 (amended): calling `predict_values_echo_state_network` with
`per_time_step = True` and `y_true = None` raises (`y_true.iloc` on `None`)
as soon as the loop reaches `t = 1`, so every call on an input with at least
two rows fails with no partial result. -/
theorem predict_per_time_step_without_targets_raises
    {ni no r : ℕ} (tanh : ℚ → ℚ) (Win : Matrix (Fin r) (Fin (ni + 1)) ℚ)
    (W : Matrix (Fin r) (Fin r) ℚ) (Wback : Matrix (Fin r) (Fin no) ℚ)
    (Wout : Matrix (Fin no) (Fin (ni + r + 1)) ℚ) (a : ℚ) (us : ℕ → Fin ni → ℚ)
    (n : ℕ) (hn : 2 ≤ n) :
    esnPredict tanh Win W Wback Wout a true us none n = Except.error () := by
  unfold esnPredict
  rw [esnPredictAux_none_error tanh Win W Wback Wout a us n hn]
  rfl

/-- Witness for the amended C5 at `n = 2`. -/
theorem predict_per_time_step_without_targets_raises_witness :
    2 ≤ 2
    ∧ @esnPredict 1 1 1 id 0 0 0 0 (4/5) true (fun _ _ => 0) none 2 = Except.error () :=
  ⟨by decide,
   predict_per_time_step_without_targets_raises id 0 0 0 0 (4/5) (fun _ _ => 0) 2 (by decide)⟩

/-- Counterexample to C5 as stated: on a one-row input the loop only runs
`t = 0`, which uses the zero vector for `y_prev` and never touches `y_true`,
so the call with `per_time_step = True` and `y_true = None` returns a normal
result instead of failing. -/
theorem predict_per_time_step_without_targets_single_row_ok :
    (@esnPredict 1 1 1 id 0 0 0 0 (4/5) true (fun _ _ => 0) none 1).isOk = true := rfl

/-- C10: with fewer training rows than the washout period of `10`, the
design-matrix allocation of `reservoir_computing` fails (numpy rejects the
negative dimension `len(train_X) - 10`) before the training loop and before
any prediction, so no output is returned at all. -/
theorem reservoir_computing_washout_underflow_raises
    {ni no r : ℕ} (tanh arctanh : ℚ → ℚ) (Win : Matrix (Fin r) (Fin (ni + 1)) ℚ)
    (W : Matrix (Fin r) (Fin r) ℚ) (Wback : Matrix (Fin r) (Fin no) ℚ) (a : ℚ)
    (per : Bool) (us : ℕ → Fin ni → ℚ) (ys : ℕ → Fin no → ℚ) (n : ℕ)
    (pinv : Matrix (Fin (n - 10)) (Fin (ni + r + 1)) ℚ →
      Matrix (Fin (ni + r + 1)) (Fin (n - 10)) ℚ)
    (usTest : ℕ → Fin ni → ℚ) (ysTest : Option (ℕ → Fin no → ℚ)) (nTest : ℕ)
    (hn : n < 10) :
    reservoirComputingRun tanh arctanh Win W Wback a per us ys n pinv usTest ysTest nTest =
      Except.error () := by
  unfold reservoirComputingRun
  rw [if_pos (by omega : (n : ℤ) - 10 < 0)]

/-- Witness for C10 at `n = 5` training rows. -/
theorem reservoir_computing_washout_underflow_raises_witness :
    5 < 10
    ∧ @reservoirComputingRun 1 1 1 id id 0 0 0 (4/5) false (fun _ _ => 0) (fun _ _ => 0) 5
        (fun _ => 0) (fun _ _ => 0) none 0 = Except.error () :=
  ⟨by decide,
   reservoir_computing_washout_underflow_raises id id 0 0 0 (4/5) false (fun _ _ => 0)
     (fun _ _ => 0) 5 (fun _ => 0) (fun _ _ => 0) none 0 (by decide)⟩

/-! ### Spectral rescaling in `initialize_echo_state_network` -/

/-- The drawn rational matrix viewed over `ℂ`, where `scipy.linalg.eig`
computes the eigenvalues whose largest absolute value is `rhoW`.  (This and
the spectral radius exist only in statements: the eigenvalue computation is
external floating-point code, so nothing here needs to execute.) -/
noncomputable def ratMatC {n : ℕ} (A : Matrix (Fin n) (Fin n) ℚ) :
    Matrix (Fin n) (Fin n) ℂ :=
  A.map (fun q => (q : ℂ))

/-- Embedding of `rhoW = max(abs(linalg.eig(W)[0])); W *= 1.25 / rhoW` in
`initialize_echo_state_network`: the returned recurrent matrix, given the
drawn matrix `W0` and the spectral radius `rhoW` reported by the eigenvalue
routine. -/
def esnScaleW {n : ℕ} (W0 : Matrix (Fin n) (Fin n) ℚ) (rhoW : ℚ) :
    Matrix (Fin n) (Fin n) ℚ :=
  (1.25 / rhoW) • W0

lemma ratMatC_smul {n : ℕ} (c : ℚ) (A : Matrix (Fin n) (Fin n) ℚ) :
    ratMatC (c • A) = ((c : ℂ)) • ratMatC A := by
  ext i j
  simp only [ratMatC, Matrix.map_apply, Matrix.smul_apply, smul_eq_mul]
  push_cast
  ring

lemma spectralRadius_complex_smul {n : ℕ} (c : ℂ) (hc : c ≠ 0)
    (B : Matrix (Fin n) (Fin n) ℂ) :
    spectralRadius ℂ (c • B) = (‖c‖₊ : ℝ≥0∞) * spectralRadius ℂ B := by
  unfold spectralRadius
  rw [show c • B = (Units.mk0 c hc) • B from rfl, spectrum.unit_smul_eq_smul,
    ← Set.image_smul, iSup_image]
  calc ⨆ k ∈ spectrum ℂ B, ((‖Units.mk0 c hc • k‖₊ : ℝ≥0∞))
      = ⨆ k ∈ spectrum ℂ B, (‖c‖₊ : ℝ≥0∞) * (‖k‖₊ : ℝ≥0∞) := by
        apply iSup_congr
        intro k
        apply iSup_congr
        intro _
        rw [Units.smul_def, Units.val_mk0, smul_eq_mul, nnnorm_mul, ENNReal.coe_mul]
    _ = (‖c‖₊ : ℝ≥0∞) * ⨆ k ∈ spectrum ℂ B, (‖k‖₊ : ℝ≥0∞) := by
        rw [ENNReal.mul_iSup]
        apply iSup_congr
        intro k
        rw [ENNReal.mul_iSup]

lemma nnnorm_ratCastC_ennreal (q : ℚ) (hq : 0 ≤ q) :
    ((‖((q : ℚ) : ℂ)‖₊ : ℝ≥0∞)) = ENNReal.ofReal ((q : ℚ) : ℝ) := by
  rw [show ((q : ℚ) : ℂ) = (((q : ℚ) : ℝ) : ℂ) from (Complex.ofReal_ratCast q).symm,
    Complex.nnnorm_real]
  exact Real.ennnorm_eq_ofReal (Rat.cast_nonneg.mpr hq)

/-- C2: after `initialize_echo_state_network`, the recurrent matrix equals the
initially drawn matrix multiplied by the scalar `1.25 / ρ`, where `ρ` is the
largest absolute eigenvalue (spectral radius over `ℂ`) of the drawn matrix;
consequently, whenever that radius is positive — which the division requires —
the spectral radius of the returned matrix is exactly `1.25`, for every
reservoir size. -/
theorem esn_scaled_spectral_radius {n : ℕ} (W0 : Matrix (Fin n) (Fin n) ℚ) (rhoW : ℚ)
    (hpos : 0 < rhoW)
    (hrho : spectralRadius ℂ (ratMatC W0) = ENNReal.ofReal ((rhoW : ℚ) : ℝ)) :
    esnScaleW W0 rhoW = (1.25 / rhoW) • W0
    ∧ spectralRadius ℂ (ratMatC (esnScaleW W0 rhoW)) = ENNReal.ofReal 1.25 := by
  refine ⟨rfl, ?_⟩
  have hq : (0 : ℚ) < 1.25 / rhoW := div_pos (by norm_num) hpos
  have hc : ((1.25 / rhoW : ℚ) : ℂ) ≠ 0 := Rat.cast_ne_zero.mpr (ne_of_gt hq)
  rw [show esnScaleW W0 rhoW = (1.25 / rhoW) • W0 from rfl, ratMatC_smul,
    spectralRadius_complex_smul _ hc, hrho,
    nnnorm_ratCastC_ennreal _ (le_of_lt hq),
    ← ENNReal.ofReal_mul (Rat.cast_nonneg.mpr (le_of_lt hq))]
  congr 1
  push_cast
  field_simp

lemma spectralRadius_one_matrix :
    spectralRadius ℂ (1 : Matrix (Fin 1) (Fin 1) ℂ) = 1 := by
  unfold spectralRadius
  rw [spectrum.one_eq, iSup_singleton]
  simp

/-- Witness for C2 at reservoir size `1` with drawn entry `2/5`: the spectral
radius of the drawn `1 × 1` matrix is `2/5`, and the rescaled matrix has
spectral radius `1.25`. -/
theorem esn_scaled_spectral_radius_witness :
    (0 : ℚ) < 2/5
    ∧ (esnScaleW (fun _ _ => (2/5 : ℚ) : Matrix (Fin 1) (Fin 1) ℚ) (2/5) =
        ((1.25 / (2/5) : ℚ)) • (fun _ _ => (2/5 : ℚ) : Matrix (Fin 1) (Fin 1) ℚ)
      ∧ spectralRadius ℂ
          (ratMatC (esnScaleW (fun _ _ => (2/5 : ℚ) : Matrix (Fin 1) (Fin 1) ℚ) (2/5))) =
        ENNReal.ofReal 1.25) := by
  refine ⟨by norm_num, esn_scaled_spectral_radius _ _ (by norm_num) ?_⟩
  have hW : ratMatC (fun _ _ => (2/5 : ℚ) : Matrix (Fin 1) (Fin 1) ℚ) =
      ((2/5 : ℚ) : ℂ) • (1 : Matrix (Fin 1) (Fin 1) ℂ) := by
    ext i j
    rw [Subsingleton.elim i j]
    simp only [ratMatC, Matrix.map_apply, Matrix.smul_apply, Matrix.one_apply_eq,
      smul_eq_mul, mul_one]
  have hc : ((2/5 : ℚ) : ℂ) ≠ 0 := Rat.cast_ne_zero.mpr (by norm_num)
  rw [hW, spectralRadius_complex_smul _ hc, spectralRadius_one_matrix, mul_one,
    nnnorm_ratCastC_ennreal _ (by norm_num)]

end ML4QS
